import Mathlib

/-!
Verification of the request-controller / history-store logic of a small
single-page REST explorer application.

The embedding covers:
* a model of the platform JSON facilities (`jsonParse`, `jsonStringify`
  with 2-space indentation) used by the success path and by display
  formatting;
* the helper functions of `src/utils/helpers.ts` (`formatResponse`,
  `truncateUrl`; the platform URL parser behind `isValidUrl` is
  abstracted as a Boolean validator parameter);
* the session state and the three handlers of `src/App.tsx`
  (`handleFetch`, `handleSelectRequest`, `handleClearHistory`);
* a labeled transition system for the user-visible events (edit, submit,
  completion of the one network call, select, clear), faithful to which
  controls are disabled while a request is loading and to the fact that
  the completion closure captures `url` and `history` at submission time.
-/

/-! ## JSON values

Model of the JavaScript JSON data reachable by `JSON.parse` /
`JSON.stringify(·, null, 2)`.  Numbers are modelled as integers; object
member lists keep insertion order and are not deduplicated. -/

mutual

inductive Json where
  | jnull : Json
  | jbool : Bool → Json
  | jnum : Int → Json
  | jstr : String → Json
  | jarr : JsonList → Json
  | jobj : JsonObj → Json

inductive JsonList where
  | nil : JsonList
  | cons : Json → JsonList → JsonList

inductive JsonObj where
  | nil : JsonObj
  | cons : String → Json → JsonObj → JsonObj

end

/-! ## Serialization: `JSON.stringify(v, null, 2)` -/

def digitChar (n : Nat) : Char := Char.ofNat (48 + n)

/-- Decimal digits of a natural number, most significant first. -/
def natChars (n : Nat) : List Char :=
  if _h : n < 10 then [digitChar n]
  else natChars (n / 10) ++ [digitChar (n % 10)]
decreasing_by exact Nat.div_lt_self (by omega) (by omega)

def intChars (n : Int) : List Char :=
  if n < 0 then '-' :: natChars n.natAbs else natChars n.toNat

def hexDigitChar (n : Nat) : Char :=
  if n < 10 then Char.ofNat (48 + n) else Char.ofNat (87 + n)

/-- The escape sequence `JSON.stringify` produces for one character of a
string. -/
def escChar (c : Char) : List Char :=
  if c = '"' then ['\\', '"']
  else if c = '\\' then ['\\', '\\']
  else if c = '\n' then ['\\', 'n']
  else if c = '\t' then ['\\', 't']
  else if c = '\r' then ['\\', 'r']
  else if c = '\x08' then ['\\', 'b']
  else if c = '\x0c' then ['\\', 'f']
  else if c.toNat < 32 then
    ['\\', 'u', '0', '0', hexDigitChar (c.toNat / 16), hexDigitChar (c.toNat % 16)]
  else [c]

def escChars : List Char → List Char
  | [] => []
  | c :: cs => escChar c ++ escChars cs

/-- Indentation: two spaces per nesting level. -/
def indent (d : Nat) : List Char := List.replicate (2 * d) ' '

/-- The serialized form of an object key: quoted string, colon, space. -/
def keyChars (k : String) : List Char :=
  '"' :: escChars k.data ++ ['"', ':', ' ']

mutual

/-- Characters of `JSON.stringify(v, null, 2)` when the value occurs at
nesting depth `d` (the enclosing container prints the indentation that
precedes the value). -/
def prettyV (d : Nat) : Json → List Char
  | .jnull => 'n' :: 'u' :: 'l' :: 'l' :: []
  | .jbool true => 't' :: 'r' :: 'u' :: 'e' :: []
  | .jbool false => 'f' :: 'a' :: 'l' :: 's' :: 'e' :: []
  | .jnum n => intChars n
  | .jstr s => '"' :: escChars s.data ++ ['"']
  | .jarr .nil => ['[', ']']
  | .jarr (.cons x xs) =>
      '[' :: '\n' :: indent (d + 1) ++ prettyV (d + 1) x ++
        prettyArrTail (d + 1) xs ++ '\n' :: indent d ++ [']']
  | .jobj .nil => ['{', '}']
  | .jobj (.cons k v m) =>
      '{' :: '\n' :: indent (d + 1) ++ keyChars k ++ prettyV (d + 1) v ++
        prettyObjTail (d + 1) m ++ '\n' :: indent d ++ ['}']

/-- Second and later array elements: comma, newline, indentation, value. -/
def prettyArrTail (d : Nat) : JsonList → List Char
  | .nil => []
  | .cons x xs => ',' :: '\n' :: indent d ++ prettyV d x ++ prettyArrTail d xs

/-- Second and later object members. -/
def prettyObjTail (d : Nat) : JsonObj → List Char
  | .nil => []
  | .cons k v m => ',' :: '\n' :: indent d ++ keyChars k ++ prettyV d v ++ prettyObjTail d m

end

/-- Model of `JSON.stringify(v, null, 2)`. -/
def jsonStringify (v : Json) : String := String.mk (prettyV 0 v)

/-! ## Parsing: `JSON.parse` -/

def isWsChar (c : Char) : Bool :=
  c = ' ' || c = '\n' || c = '\t' || c = '\r'

def skipWs : List Char → List Char
  | [] => []
  | c :: cs => if isWsChar c then skipWs cs else c :: cs

/-- Value of a hexadecimal digit. -/
def hexVal (c : Char) : Option Nat :=
  if 48 ≤ c.toNat ∧ c.toNat ≤ 57 then some (c.toNat - 48)
  else if 97 ≤ c.toNat ∧ c.toNat ≤ 102 then some (c.toNat - 87)
  else if 65 ≤ c.toNat ∧ c.toNat ≤ 70 then some (c.toNat - 55)
  else none

/-- Resolution of a single-character escape. -/
def unescChar (c : Char) : Option Char :=
  if c = '"' then some '"'
  else if c = '\\' then some '\\'
  else if c = '/' then some '/'
  else if c = 'n' then some '\n'
  else if c = 't' then some '\t'
  else if c = 'r' then some '\r'
  else if c = 'b' then some '\x08'
  else if c = 'f' then some '\x0c'
  else none

/-- Parse the body of a string literal (the opening quote already
consumed); returns the decoded characters and the input after the closing
quote. -/
def parseStringBody : List Char → Option (List Char × List Char)
  | [] => none
  | c :: cs =>
    if c = '"' then some ([], cs)
    else if c = '\\' then
      match cs with
      | [] => none
      | e :: cs' =>
        if e = 'u' then
          match cs' with
          | h1 :: h2 :: h3 :: h4 :: cs'' =>
            match hexVal h1, hexVal h2, hexVal h3, hexVal h4 with
            | some a, some b, some c3, some c4 =>
              match parseStringBody cs'' with
              | some p => some (Char.ofNat (a * 4096 + b * 256 + c3 * 16 + c4) :: p.1, p.2)
              | none => none
            | _, _, _, _ => none
          | _ => none
        else
          match unescChar e with
          | some u =>
            match parseStringBody cs' with
            | some p => some (u :: p.1, p.2)
            | none => none
          | none => none
    else
      match parseStringBody cs with
      | some p => some (c :: p.1, p.2)
      | none => none
termination_by l => l.length
decreasing_by all_goals simp_arith [List.length]

def digitVal (c : Char) : Nat := c.toNat - 48

/-- Consume a maximal run of decimal digits, folding them onto `acc`. -/
def takeDigits (acc : Nat) : List Char → Nat × List Char
  | [] => (acc, [])
  | c :: cs => if c.isDigit then takeDigits (acc * 10 + digitVal c) cs else (acc, c :: cs)

/-- Parse an (optionally negated) integer literal. -/
def parseNumber : List Char → Option (Int × List Char)
  | [] => none
  | c :: cs =>
    if c = '-' then
      match cs with
      | c1 :: _ =>
        if c1.isDigit then
          let p := takeDigits 0 cs
          some (-(p.1 : Int), p.2)
        else none
      | [] => none
    else if c.isDigit then
      let p := takeDigits 0 (c :: cs)
      some ((p.1 : Int), p.2)
    else none

mutual

/-- Parse one JSON value; the input must start with the value (no leading
whitespace).  `fuel` bounds the recursion depth. -/
def parseVal : Nat → List Char → Option (Json × List Char)
  | 0, _ => none
  | _ + 1, [] => none
  | fuel + 1, c :: cs =>
    if c = 'n' then
      match cs with
      | 'u' :: 'l' :: 'l' :: r => some (.jnull, r)
      | _ => none
    else if c = 't' then
      match cs with
      | 'r' :: 'u' :: 'e' :: r => some (.jbool true, r)
      | _ => none
    else if c = 'f' then
      match cs with
      | 'a' :: 'l' :: 's' :: 'e' :: r => some (.jbool false, r)
      | _ => none
    else if c = '"' then
      match parseStringBody cs with
      | some p => some (.jstr (String.mk p.1), p.2)
      | none => none
    else if c = '[' then parseArrStart fuel (skipWs cs)
    else if c = '{' then parseObjStart fuel (skipWs cs)
    else
      match parseNumber (c :: cs) with
      | some p => some (.jnum p.1, p.2)
      | none => none

/-- Parse the inside of an array after the opening bracket (leading
whitespace already skipped): either an immediate closing bracket or a
first element followed by the remaining elements. -/
def parseArrStart : Nat → List Char → Option (Json × List Char)
  | 0, _ => none
  | _ + 1, [] => none
  | fuel + 1, c1 :: r =>
    if c1 = ']' then some (.jarr .nil, r)
    else
      match parseVal fuel (c1 :: r) with
      | some (v, r1) =>
        match parseArrTail fuel r1 with
        | some (xs, r2) => some (.jarr (.cons v xs), r2)
        | none => none
      | none => none

/-- Parse the inside of an object after the opening brace (leading
whitespace already skipped). -/
def parseObjStart : Nat → List Char → Option (Json × List Char)
  | 0, _ => none
  | _ + 1, [] => none
  | fuel + 1, c1 :: r =>
    if c1 = '}' then some (.jobj .nil, r)
    else
      match parseObjEntry fuel (c1 :: r) with
      | some (kv, r1) =>
        match parseObjTail fuel r1 with
        | some (m, r2) => some (.jobj (.cons kv.1 kv.2 m), r2)
        | none => none
      | none => none

/-- Parse the remainder of an array after one element: either a closing
bracket or a comma followed by a value, repeatedly. -/
def parseArrTail : Nat → List Char → Option (JsonList × List Char)
  | 0, _ => none
  | fuel + 1, cs =>
    match skipWs cs with
    | [] => none
    | c :: r =>
      if c = ']' then some (.nil, r)
      else if c = ',' then
        match parseVal fuel (skipWs r) with
        | some (v, r1) =>
          match parseArrTail fuel r1 with
          | some (xs, r2) => some (.cons v xs, r2)
          | none => none
        | none => none
      else none

/-- Parse one `"key": value` member (input starts at the opening quote of
the key). -/
def parseObjEntry : Nat → List Char → Option ((String × Json) × List Char)
  | 0, _ => none
  | _ + 1, [] => none
  | fuel + 1, c :: cs =>
    if c = '"' then
      match parseStringBody cs with
      | some kp =>
        match skipWs kp.2 with
        | [] => none
        | c1 :: r =>
          if c1 = ':' then
            match parseVal fuel (skipWs r) with
            | some (v, r1) => some ((String.mk kp.1, v), r1)
            | none => none
          else none
      | none => none
    else none

/-- Parse the remainder of an object after one member. -/
def parseObjTail : Nat → List Char → Option (JsonObj × List Char)
  | 0, _ => none
  | fuel + 1, cs =>
    match skipWs cs with
    | [] => none
    | c :: r =>
      if c = '}' then some (.nil, r)
      else if c = ',' then
        match parseObjEntry fuel (skipWs r) with
        | some (kv, r1) =>
          match parseObjTail fuel r1 with
          | some (m, r2) => some (.cons kv.1 kv.2 m, r2)
          | none => none
        | none => none
      else none

end

/-- Model of `JSON.parse`: `none` models the thrown `SyntaxError`. -/
def jsonParse (s : String) : Option Json :=
  match parseVal (s.length + 1) (skipWs s.data) with
  | some (v, r) => if skipWs r = [] then some v else none
  | none => none

/-! ## Helpers (`src/utils/helpers.ts`) -/

/-- The request lifecycle of the session (`'idle' | 'loading' | 'success'
| 'error'`). -/
inductive Status where
  | idle | loading | success | error
deriving DecidableEq, Repr

/-- The outcome stored on a history record (`'success' | 'error'`). -/
inductive ReqStatus where
  | success | error
deriving DecidableEq, Repr

/-- The inclusion of record outcomes into lifecycle states performed
implicitly by `setStatus(request.status)`. -/
def ReqStatus.toStatus : ReqStatus → Status
  | .success => .success
  | .error => .error

/-- `formatResponse` from `helpers.ts`: for a finished request, try to
parse the text as JSON and re-serialize it with 2-space indentation;
otherwise (or if parsing throws) pass the text through. -/
def formatResponse (response : String) (status : Status) : String :=
  if status = Status.success ∨ status = Status.error then
    match jsonParse response with
    | some parsed => jsonStringify parsed
    | none => response
  else response

/-- `truncateUrl` from `helpers.ts`.  `substring(0, maxLength - 3)` clamps
a negative end index to `0`, which truncated subtraction mirrors. -/
def truncateUrl (url : String) (maxLength : Nat := 40) : String :=
  if url.length ≤ maxLength then url
  else String.mk (url.data.take (maxLength - 3)) ++ "..."

/-! ## Session state and handlers (`src/App.tsx`)

The platform URL parser behind `isValidUrl` is abstracted as a Boolean
validator passed as a parameter (`isValidUrl` merely asks whether
`new URL(urlString)` throws). -/

/-- The `ApiRequest` record type (`src/types/ApiRequest.ts`). -/
structure ApiRequest where
  id : Nat
  url : String
  response : String
  status : ReqStatus
  timestamp : String
deriving DecidableEq, Repr

/-- The five `useState` variables of `App`. -/
structure AppState where
  url : String
  response : String
  status : Status
  history : List ApiRequest
  currentRequestId : Option Nat
deriving DecidableEq, Repr

/-- The initial state created on mount. -/
def initialState : AppState :=
  { url := ""
    response := "No data yet. Enter an API endpoint and click Fetch."
    status := .idle
    history := []
    currentRequestId := none }

/-- Observable behavior of the awaited network interaction: either
`fetch` rejects (with the thrown value's `message` if it was an `Error`
instance, else `none`), or it resolves with a response carrying an `ok`
flag and a body; `parseErrMsg` is the platform `SyntaxError` message
produced if `res.json()` fails on that body. -/
inductive FetchEvent where
  | reject (msg : Option String)
  | resolve (ok : Bool) (body : String) (parseErrMsg : String)

/-- Variables captured by the `handleFetch` closure at submission time:
the awaited continuation uses the `url` and `history` values from the
render in which the handler was invoked. -/
structure FetchCtx where
  url : String
  history : List ApiRequest
deriving DecidableEq, Repr

/-- The continuation of `handleFetch` after the `await`s: the `try`
branch on a resolved call whose body parses, the `catch` branch
otherwise.  `now` is `Date.now()`, `ts` the `toLocaleTimeString()`
value. -/
def completeFetch (cap : FetchCtx) (ev : FetchEvent) (now : Nat) (ts : String)
    (s : AppState) : AppState :=
  match ev with
  | .resolve _ body parseErrMsg =>
    match jsonParse body with
    | some data =>
      let responseText := jsonStringify data
      let newRequest : ApiRequest :=
        { id := now, url := cap.url, response := responseText, status := .success, timestamp := ts }
      { s with response := responseText, status := .success,
               history := cap.history ++ [newRequest], currentRequestId := some now }
    | none =>
      let errorText := "Error: " ++ parseErrMsg
      let newRequest : ApiRequest :=
        { id := now, url := cap.url, response := errorText, status := .error, timestamp := ts }
      { s with response := errorText, status := .error,
               history := cap.history ++ [newRequest], currentRequestId := some now }
  | .reject msg =>
    let errorText := "Error: " ++ msg.getD "Unknown error"
    let newRequest : ApiRequest :=
      { id := now, url := cap.url, response := errorText, status := .error, timestamp := ts }
    { s with response := errorText, status := .error,
             history := cap.history ++ [newRequest], currentRequestId := some now }

/-- `handleFetch` run to completion: the guard, the synchronous loading
phase, and the completion of the single network call.  The Boolean
result records whether a network request was issued. -/
def handleFetch (validUrl : String → Bool) (s : AppState) (ev : FetchEvent)
    (now : Nat) (ts : String) : AppState × Bool :=
  if s.url = "" ∨ validUrl s.url = false then (s, false)
  else
    let s1 := { s with status := Status.loading, response := "Fetching data..." }
    (completeFetch { url := s.url, history := s.history } ev now ts s1, true)

/-- `handleSelectRequest` from `App.tsx`. -/
def handleSelectRequest (s : AppState) (request : ApiRequest) : AppState :=
  { s with url := request.url, response := request.response,
           status := request.status.toStatus, currentRequestId := some request.id }

/-- `handleClearHistory` from `App.tsx`. -/
def handleClearHistory (s : AppState) : AppState :=
  { s with history := [], currentRequestId := none,
           response := "History cleared. Enter an API endpoint and click Fetch.",
           status := .idle }

/-! ## The event system

States pair the `App` state with the list of outstanding (not yet
completed) network calls, each carrying its captured closure variables.
The transitions reflect which controls the markup disables: the URL
input and the Fetch button are inert while `status === 'loading'`
(`InputField`), whereas history items are always clickable and the Clear
button is rendered whenever the history is non-empty (`HistoryPanel`). -/

structure SysState where
  app : AppState
  pending : List FetchCtx
deriving DecidableEq, Repr

def initialSys : SysState := { app := initialState, pending := [] }

/-- User-visible events. -/
inductive Act where
  | edit (u : String)
  | submit
  | complete (ev : FetchEvent) (now : Nat) (ts : String)
  | select (r : ApiRequest)
  | clear

/-- One transition of the application, labeled by the triggering event. -/
inductive Step (validUrl : String → Bool) : Act → SysState → SysState → Prop
  | edit (u : String) (s : SysState)
      (hl : s.app.status ≠ Status.loading) :
      Step validUrl (.edit u) s ⟨{ s.app with url := u }, s.pending⟩
  | submit (s : SysState)
      (hl : s.app.status ≠ Status.loading)
      (hu : ¬(s.app.url = "" ∨ validUrl s.app.url = false)) :
      Step validUrl .submit s
        ⟨{ s.app with status := Status.loading, response := "Fetching data..." },
         s.pending ++ [{ url := s.app.url, history := s.app.history }]⟩
  | complete (ev : FetchEvent) (now : Nat) (ts : String) (cap : FetchCtx)
      (rest : List FetchCtx) (s : SysState)
      (hp : s.pending = cap :: rest) :
      Step validUrl (.complete ev now ts) s ⟨completeFetch cap ev now ts s.app, rest⟩
  | select (r : ApiRequest) (s : SysState)
      (hr : r ∈ s.app.history) :
      Step validUrl (.select r) s ⟨handleSelectRequest s.app r, s.pending⟩
  | clear (s : SysState)
      (hh : s.app.history ≠ []) :
      Step validUrl .clear s ⟨handleClearHistory s.app, s.pending⟩

/-- Reachability from the initial state by any sequence of events. -/
def Reachable (validUrl : String → Bool) (s : SysState) : Prop :=
  Relation.ReflTransGen (fun a b => ∃ act, Step validUrl act a b) initialSys s

/-- Reachability annotated with a strict clock discipline: `t` is a
strict upper bound on the `Date.now()` readings of all completions so
far, and every completion reads a clock value at least the bound (i.e.
strictly above every earlier reading). -/
inductive ReachClocked (validUrl : String → Bool) : Nat → SysState → Prop
  | init : ReachClocked validUrl 0 initialSys
  | nonComplete (t : Nat) (a : Act) (s s' : SysState)
      (hr : ReachClocked validUrl t s)
      (hstep : Step validUrl a s s')
      (hnc : ∀ ev now ts, a ≠ Act.complete ev now ts) :
      ReachClocked validUrl t s'
  | complete (t : Nat) (ev : FetchEvent) (now : Nat) (ts : String) (s s' : SysState)
      (hr : ReachClocked validUrl t s)
      (hstep : Step validUrl (.complete ev now ts) s s')
      (hclock : t ≤ now) :
      ReachClocked validUrl (now + 1) s'

/-! ## Auxiliary definitions for the verification -/

def headNotDigit : List Char → Bool
  | [] => true
  | c :: _ => !c.isDigit

/-- Power of ten with as many digits as `n` has. -/
def pow10Len (n : Nat) : Nat :=
  if _h : n < 10 then 10 else pow10Len (n / 10) * 10
decreasing_by exact Nat.div_lt_self (by omega) (by omega)

mutual

/-- Fuel measure for a value. -/
def sizeJ : Json → Nat
  | .jnull => 1
  | .jbool _ => 1
  | .jnum _ => 1
  | .jstr _ => 1
  | .jarr xs => 3 + sizeL xs
  | .jobj m => 3 + sizeO m

def sizeL : JsonList → Nat
  | .nil => 0
  | .cons x xs => 2 + sizeJ x + sizeL xs

def sizeO : JsonObj → Nat
  | .nil => 0
  | .cons _ v m => 2 + sizeJ v + sizeO m

end

/-- Characters a serialized JSON value can start with. -/
def valStartChar (c : Char) : Bool :=
  c = 'n' || c = 't' || c = 'f' || c = '"' || c = '[' || c = '{' || c = '-' || c.isDigit

/-! ## Spec-side descriptions used by the failure claims -/

/-- The error text the catch branch produces for a failing event, as the
spec words it: the exception's message, or "Unknown error" when the
thrown value carries none; a parse failure throws the platform
`SyntaxError` with its own message. -/
def errTextOf : FetchEvent → String
  | .reject (some m) => "Error: " ++ m
  | .reject none => "Error: Unknown error"
  | .resolve _ _ parseErrMsg => "Error: " ++ parseErrMsg

/-- Events on which the `await`ed interaction raises: the network call
rejects, or the body fails to parse as JSON. -/
def FetchFails : FetchEvent → Prop
  | .reject _ => True
  | .resolve _ body _ => jsonParse body = none

/-- A validator accepting every string; stands in for the platform URL
parser in concrete scenarios. -/
def anyUrl : String → Bool := fun _ => true

/-- A reachable state with two outstanding network calls: submit, let the
call complete, submit again, select a history record while loading
(history items are never disabled), and submit once more. -/
def c5twoInFlight : SysState :=
  ⟨⟨"http://a", "Fetching data...", .loading,
    [⟨1, "http://a", "[]", .success, "t1"⟩], some 1⟩,
   [⟨"http://a", [⟨1, "http://a", "[]", .success, "t1"⟩]⟩,
    ⟨"http://a", [⟨1, "http://a", "[]", .success, "t1"⟩]⟩]⟩

/-- A reachable state (with two completions reading the same clock
value 5) whose history carries two records with equal ids. -/
def c6dupIds : SysState :=
  ⟨⟨"http://a", "[]", .success,
    [⟨5, "http://a", "[]", .success, "t"⟩, ⟨5, "http://a", "[]", .success, "t"⟩],
    some 5⟩, []⟩

/-! ## Lemmas: whitespace and digits -/


theorem skipWs_cons_of_ws {c : Char} (h : isWsChar c = true) (cs : List Char) :
    skipWs (c :: cs) = skipWs cs := by
  simp [skipWs, h]

theorem skipWs_cons_of_not_ws {c : Char} (h : isWsChar c = false) (cs : List Char) :
    skipWs (c :: cs) = c :: cs := by
  simp [skipWs, h]

theorem skipWs_replicate_space (n : Nat) (cs : List Char) :
    skipWs (List.replicate n ' ' ++ cs) = skipWs cs := by
  induction n with
  | zero => rfl
  | succ n ih =>
    rw [List.replicate_succ, List.cons_append, skipWs_cons_of_ws (by decide)]
    exact ih

theorem skipWs_indent (d : Nat) (cs : List Char) :
    skipWs (indent d ++ cs) = skipWs cs :=
  skipWs_replicate_space (2 * d) cs

theorem skipWs_newline (cs : List Char) : skipWs ('\n' :: cs) = skipWs cs :=
  skipWs_cons_of_ws (by decide) cs

theorem isDigit_iff_toNat {c : Char} : c.isDigit = true ↔ 48 ≤ c.toNat ∧ c.toNat ≤ 57 := by
  constructor
  · intro h
    simpa [Char.isDigit] using h
  · intro h
    simpa [Char.isDigit] using h

theorem digitChar_isDigit {n : Nat} (h : n < 10) : (digitChar n).isDigit = true := by
  interval_cases n <;> decide

theorem digitVal_digitChar {n : Nat} (h : n < 10) : digitVal (digitChar n) = n := by
  interval_cases n <;> decide

theorem hexVal_hexDigitChar {n : Nat} (h : n < 16) : hexVal (hexDigitChar n) = some n := by
  interval_cases n <;> decide


theorem takeDigits_natChars (n : Nat) (acc : Nat) (rest : List Char) :
    takeDigits acc (natChars n ++ rest) = takeDigits (acc * pow10Len n + n) rest := by
  induction n using Nat.strong_induction_on generalizing acc rest with
  | _ n ih =>
    rw [natChars, pow10Len]
    by_cases h : n < 10
    · simp only [h, dif_pos]
      simp [takeDigits, digitChar_isDigit h, digitVal_digitChar h]
    · simp only [h, dif_neg, not_false_iff, List.append_assoc, List.cons_append,
        List.nil_append]
      rw [ih (n / 10) (Nat.div_lt_self (by omega) (by omega)) acc]
      have h10 : n % 10 < 10 := Nat.mod_lt _ (by omega)
      simp only [takeDigits, digitChar_isDigit h10, digitVal_digitChar h10, if_pos]
      congr 1
      have := Nat.div_add_mod n 10
      ring_nf
      omega

theorem takeDigits_of_headNotDigit (acc : Nat) {rest : List Char}
    (h : headNotDigit rest = true) : takeDigits acc rest = (acc, rest) := by
  cases rest with
  | nil => rfl
  | cons c cs =>
    simp only [headNotDigit, Bool.not_eq_true'] at h
    simp [takeDigits, h]

theorem natChars_head (n : Nat) :
    ∃ c t, natChars n = c :: t ∧ c.isDigit = true := by
  induction n using Nat.strong_induction_on with
  | _ n ih =>
    rw [natChars]
    by_cases h : n < 10
    · exact ⟨digitChar n, [], by simp [h], digitChar_isDigit h⟩
    · obtain ⟨c, t, hct, hd⟩ := ih (n / 10) (Nat.div_lt_self (by omega) (by omega))
      exact ⟨c, t ++ [digitChar (n % 10)], by simp [h, hct], hd⟩

theorem parseNumber_natChars (n : Nat) {rest : List Char}
    (h : headNotDigit rest = true) :
    parseNumber (natChars n ++ rest) = some ((n : Int), rest) := by
  obtain ⟨c, t, hct, hd⟩ := natChars_head n
  have hne : c ≠ '-' := by
    intro hc
    rw [hc] at hd
    exact absurd hd (by decide)
  rw [hct, List.cons_append]
  simp only [parseNumber]
  rw [if_neg hne, if_pos hd]
  have : takeDigits 0 (c :: (t ++ rest)) = (n, rest) := by
    rw [← List.cons_append, ← hct, takeDigits_natChars,
      takeDigits_of_headNotDigit _ h]
    simp
  simp [this]

theorem parseNumber_intChars (n : Int) {rest : List Char}
    (h : headNotDigit rest = true) :
    parseNumber (intChars n ++ rest) = some (n, rest) := by
  rw [intChars]
  by_cases hneg : n < 0
  · rw [if_pos hneg, List.cons_append]
    obtain ⟨c, t, hct, hd⟩ := natChars_head n.natAbs
    have htd : takeDigits 0 (natChars n.natAbs ++ rest) = (n.natAbs, rest) := by
      rw [takeDigits_natChars, takeDigits_of_headNotDigit _ h]
      simp
    simp only [parseNumber, if_pos, hct, List.cons_append, hd, if_true, ite_true]
    rw [← List.cons_append, ← hct, htd]
    have : -((n.natAbs : Nat) : Int) = n := by omega
    rw [this]
  · rw [if_neg hneg, parseNumber_natChars _ h]
    have : ((n.toNat : Nat) : Int) = n := by omega
    rw [this]

/-! ## Lemmas: string bodies -/

theorem parseStringBody_escChars (l : List Char) (rest : List Char) :
    parseStringBody (escChars l ++ '"' :: rest) = some (l, rest) := by
  induction l with
  | nil =>
    rw [show escChars [] = [] from rfl, List.nil_append, parseStringBody.eq_def]
    simp
  | cons c l ih =>
    show parseStringBody ((escChar c ++ escChars l) ++ '"' :: rest) = _
    rw [List.append_assoc, escChar]
    by_cases h1 : c = '"'
    · rw [if_pos h1, List.cons_append, List.cons_append, List.nil_append,
        parseStringBody.eq_def]
      simp [unescChar, ih, h1]
    rw [if_neg h1]
    by_cases h2 : c = '\\'
    · rw [if_pos h2, List.cons_append, List.cons_append, List.nil_append,
        parseStringBody.eq_def]
      simp [unescChar, ih, h2]
    rw [if_neg h2]
    by_cases h3 : c = '\n'
    · rw [if_pos h3, List.cons_append, List.cons_append, List.nil_append,
        parseStringBody.eq_def]
      simp [unescChar, ih, h3]
    rw [if_neg h3]
    by_cases h4 : c = '\t'
    · rw [if_pos h4, List.cons_append, List.cons_append, List.nil_append,
        parseStringBody.eq_def]
      simp [unescChar, ih, h4]
    rw [if_neg h4]
    by_cases h5 : c = '\r'
    · rw [if_pos h5, List.cons_append, List.cons_append, List.nil_append,
        parseStringBody.eq_def]
      simp [unescChar, ih, h5]
    rw [if_neg h5]
    by_cases h6 : c = '\x08'
    · rw [if_pos h6, List.cons_append, List.cons_append, List.nil_append,
        parseStringBody.eq_def]
      simp [unescChar, ih, h6]
    rw [if_neg h6]
    by_cases h7 : c = '\x0c'
    · rw [if_pos h7, List.cons_append, List.cons_append, List.nil_append,
        parseStringBody.eq_def]
      simp [unescChar, ih, h7]
    rw [if_neg h7]
    by_cases h8 : c.toNat < 32
    · rw [if_pos h8]
      simp only [List.cons_append, List.nil_append]
      rw [parseStringBody.eq_def]
      have hdiv : c.toNat / 16 < 16 := by omega
      have hmod : c.toNat % 16 < 16 := Nat.mod_lt _ (by omega)
      simp [hexVal_hexDigitChar hdiv, hexVal_hexDigitChar hmod, ih,
        show hexVal '0' = some 0 from by decide]
      rw [show c.toNat / 16 * 16 + c.toNat % 16 = c.toNat from by
        have := Nat.div_add_mod c.toNat 16
        omega]
      exact Char.ofNat_toNat c
    · rw [if_neg h8, List.cons_append, List.nil_append, parseStringBody.eq_def]
      simp [h1, h2, ih]

/-! ## Lemmas: sizes and head characters of serialized values -/


theorem sizeJ_pos (v : Json) : 1 ≤ sizeJ v := by
  cases v <;> simp [sizeJ] <;> omega


theorem natChars_head_valStart (n : Nat) :
    ∃ c t, natChars n = c :: t ∧ valStartChar c = true := by
  obtain ⟨c, t, hct, hd⟩ := natChars_head n
  exact ⟨c, t, hct, by simp [valStartChar, hd]⟩

theorem intChars_head (n : Int) :
    ∃ c t, intChars n = c :: t ∧ valStartChar c = true := by
  rw [intChars]
  by_cases h : n < 0
  · exact ⟨'-', _, by rw [if_pos h], by decide⟩
  · rw [if_neg h]
    exact natChars_head_valStart n.toNat

theorem prettyV_head (d : Nat) (v : Json) :
    ∃ c t, prettyV d v = c :: t ∧ valStartChar c = true := by
  cases v with
  | jnull => exact ⟨'n', _, rfl, by decide⟩
  | jbool b =>
    cases b
    · exact ⟨'f', _, rfl, by decide⟩
    · exact ⟨'t', _, rfl, by decide⟩
  | jnum n => exact intChars_head n
  | jstr s => exact ⟨'"', _, rfl, by decide⟩
  | jarr xs =>
    cases xs
    · exact ⟨'[', _, rfl, by decide⟩
    · exact ⟨'[', _, rfl, by decide⟩
  | jobj m =>
    cases m
    · exact ⟨'{', _, rfl, by decide⟩
    · exact ⟨'{', _, rfl, by decide⟩

theorem valStartChar_not_ws {c : Char} (h : valStartChar c = true) :
    isWsChar c = false := by
  simp only [valStartChar, Bool.or_eq_true, decide_eq_true_eq] at h
  rcases h with ((((((h | h) | h) | h) | h) | h) | h) | h
  · subst h; decide
  · subst h; decide
  · subst h; decide
  · subst h; decide
  · subst h; decide
  · subst h; decide
  · subst h; decide
  · rw [isDigit_iff_toNat] at h
    have hs : c ≠ ' ' := fun he => by subst he; exact absurd h (by decide)
    have hn : c ≠ '\n' := fun he => by subst he; exact absurd h (by decide)
    have ht : c ≠ '\t' := fun he => by subst he; exact absurd h (by decide)
    have hr : c ≠ '\r' := fun he => by subst he; exact absurd h (by decide)
    simp [isWsChar, hs, hn, ht, hr]

theorem valStartChar_ne {c : Char} (h : valStartChar c = true) :
    c ≠ ']' ∧ c ≠ '}' ∧ c ≠ ',' ∧ c ≠ ':' := by
  simp only [valStartChar, Bool.or_eq_true, decide_eq_true_eq] at h
  rcases h with ((((((h | h) | h) | h) | h) | h) | h) | h
  · subst h; refine ⟨by decide, by decide, by decide, by decide⟩
  · subst h; refine ⟨by decide, by decide, by decide, by decide⟩
  · subst h; refine ⟨by decide, by decide, by decide, by decide⟩
  · subst h; refine ⟨by decide, by decide, by decide, by decide⟩
  · subst h; refine ⟨by decide, by decide, by decide, by decide⟩
  · subst h; refine ⟨by decide, by decide, by decide, by decide⟩
  · subst h; refine ⟨by decide, by decide, by decide, by decide⟩
  · rw [isDigit_iff_toNat] at h
    refine ⟨?_, ?_, ?_, ?_⟩ <;> (intro he; subst he; exact absurd h (by decide))

/-- A serialized value followed by anything is unchanged by `skipWs`. -/
theorem skipWs_prettyV (d : Nat) (v : Json) (rest : List Char) :
    skipWs (prettyV d v ++ rest) = prettyV d v ++ rest := by
  obtain ⟨c, t, hct, hvs⟩ := prettyV_head d v
  rw [hct, List.cons_append, skipWs_cons_of_not_ws (valStartChar_not_ws hvs)]

theorem headNotDigit_arrTail (d : Nat) (xs : JsonList) (l : List Char) :
    headNotDigit (prettyArrTail d xs ++ '\n' :: l) = true := by
  cases xs <;> rfl

theorem headNotDigit_objTail (d : Nat) (m : JsonObj) (l : List Char) :
    headNotDigit (prettyObjTail d m ++ '\n' :: l) = true := by
  cases m <;> rfl

mutual

theorem sizeJ_le_length (v : Json) (d : Nat) : sizeJ v ≤ (prettyV d v).length + 1 := by
  cases v with
  | jnull => simp [sizeJ, prettyV]
  | jbool b => cases b <;> simp [sizeJ, prettyV]
  | jnum n => simp [sizeJ, prettyV]
  | jstr s => simp [sizeJ, prettyV]
  | jarr xs =>
    cases xs with
    | nil => simp [sizeJ, sizeL, prettyV]
    | cons x ys =>
      have h1 := sizeJ_le_length x (d + 1)
      have h2 := sizeL_le_length ys d
      simp only [sizeJ, sizeL, prettyV, List.length_append, List.length_cons,
        indent, List.length_replicate, List.length_nil]
      omega
  | jobj m =>
    cases m with
    | nil => simp [sizeJ, sizeO, prettyV]
    | cons k v m =>
      have h1 := sizeJ_le_length v (d + 1)
      have h2 := sizeO_le_length m d
      simp only [sizeJ, sizeO, prettyV, List.length_append, List.length_cons, keyChars,
        indent, List.length_replicate, List.length_nil]
      omega

theorem sizeL_le_length (xs : JsonList) (d : Nat) :
    sizeL xs ≤ (prettyArrTail (d + 1) xs).length := by
  cases xs with
  | nil => simp [sizeL, prettyArrTail]
  | cons x ys =>
    have h1 := sizeJ_le_length x (d + 1)
    have h2 := sizeL_le_length ys d
    simp only [sizeL, prettyArrTail, List.length_append, List.length_cons,
      indent, List.length_replicate]
    omega

theorem sizeO_le_length (m : JsonObj) (d : Nat) :
    sizeO m ≤ (prettyObjTail (d + 1) m).length := by
  cases m with
  | nil => simp [sizeO, prettyObjTail]
  | cons k v m =>
    have h1 := sizeJ_le_length v (d + 1)
    have h2 := sizeO_le_length m d
    simp only [sizeO, prettyObjTail, List.length_append, List.length_cons, keyChars,
      indent, List.length_replicate]
    omega

end

/-! ## The parse/serialize round trip -/

theorem skipWs_keyChars (k : String) (rest : List Char) :
    skipWs (keyChars k ++ rest) = keyChars k ++ rest := by
  have h : isWsChar '"' = false := by decide
  simp [keyChars, skipWs, h]

theorem intChars_head_num (n : Int) :
    ∃ c t, intChars n = c :: t ∧ (c = '-' ∨ c.isDigit = true) := by
  rw [intChars]
  by_cases h : n < 0
  · exact ⟨'-', _, by rw [if_pos h], Or.inl rfl⟩
  · rw [if_neg h]
    obtain ⟨c, t, hct, hd⟩ := natChars_head n.toNat
    exact ⟨c, t, hct, Or.inr hd⟩

theorem numStart_ne {c : Char} (h : c = '-' ∨ c.isDigit = true) :
    c ≠ 'n' ∧ c ≠ 't' ∧ c ≠ 'f' ∧ c ≠ '"' ∧ c ≠ '[' ∧ c ≠ '{' := by
  rcases h with h | h
  · subst h
    refine ⟨by decide, by decide, by decide, by decide, by decide, by decide⟩
  · rw [isDigit_iff_toNat] at h
    refine ⟨?_, ?_, ?_, ?_, ?_, ?_⟩ <;> (intro he; subst he; exact absurd h (by decide))


theorem mk_data (s : String) : String.mk s.data = s := rfl

theorem parse_pretty (fuel : Nat) :
    (∀ v d rest, sizeJ v ≤ fuel → headNotDigit rest = true →
      parseVal fuel (prettyV d v ++ rest) = some (v, rest)) ∧
    (∀ x xs d rest, sizeJ x + sizeL xs + 2 ≤ fuel → headNotDigit rest = true →
      parseArrStart fuel (prettyV (d + 1) x ++ (prettyArrTail (d + 1) xs ++
        ('\n' :: (indent d ++ (']' :: rest))))) = some (.jarr (.cons x xs), rest)) ∧
    (∀ xs d rest, sizeL xs + 1 ≤ fuel → headNotDigit rest = true →
      parseArrTail fuel (prettyArrTail (d + 1) xs ++ ('\n' :: (indent d ++ (']' :: rest)))) =
        some (xs, rest)) ∧
    (∀ k v m d rest, sizeJ v + sizeO m + 4 ≤ fuel → headNotDigit rest = true →
      parseObjStart fuel (keyChars k ++ (prettyV (d + 1) v ++ (prettyObjTail (d + 1) m ++
        ('\n' :: (indent d ++ ('}' :: rest)))))) = some (.jobj (.cons k v m), rest)) ∧
    (∀ m d rest, sizeO m + 1 ≤ fuel → headNotDigit rest = true →
      parseObjTail fuel (prettyObjTail (d + 1) m ++ ('\n' :: (indent d ++ ('}' :: rest)))) =
        some (m, rest)) ∧
    (∀ k v d rest, sizeJ v + 1 ≤ fuel → headNotDigit rest = true →
      parseObjEntry fuel (keyChars k ++ (prettyV d v ++ rest)) = some ((k, v), rest)) := by
  induction fuel with
  | zero =>
    refine ⟨?_, ?_, ?_, ?_, ?_, ?_⟩
    · intro v d rest hsz _
      have := sizeJ_pos v
      omega
    · intro x xs d rest hsz _
      omega
    · intro xs d rest hsz _
      omega
    · intro k v m d rest hsz _
      omega
    · intro m d rest hsz _
      omega
    · intro k v d rest hsz _
      omega
  | succ fuel ih =>
    obtain ⟨ihA, ihS, ihB, ihO, ihC, ihE⟩ := ih
    refine ⟨?_, ?_, ?_, ?_, ?_, ?_⟩
    -- A: whole values
    · intro v d rest hsz hnd
      cases v with
      | jnull =>
        show parseVal (fuel + 1) (('n' :: 'u' :: 'l' :: 'l' :: []) ++ rest) = _
        simp only [List.cons_append, List.nil_append, parseVal]
        simp
      | jbool b =>
        cases b
        · show parseVal (fuel + 1) (('f' :: 'a' :: 'l' :: 's' :: 'e' :: []) ++ rest) = _
          simp only [List.cons_append, List.nil_append, parseVal]
          simp
        · show parseVal (fuel + 1) (('t' :: 'r' :: 'u' :: 'e' :: []) ++ rest) = _
          simp only [List.cons_append, List.nil_append, parseVal]
          simp
      | jnum n =>
        show parseVal (fuel + 1) (intChars n ++ rest) = _
        obtain ⟨c, t, hct, hnum⟩ := intChars_head_num n
        obtain ⟨hn1, hn2, hn3, hn4, hn5, hn6⟩ := numStart_ne hnum
        rw [hct, List.cons_append]
        simp only [parseVal]
        rw [if_neg hn1, if_neg hn2, if_neg hn3, if_neg hn4, if_neg hn5, if_neg hn6,
          ← List.cons_append, ← hct, parseNumber_intChars n hnd]
      | jstr s =>
        have harg : prettyV d (Json.jstr s) ++ rest =
            '"' :: (escChars s.data ++ ('"' :: rest)) := by
          simp [prettyV]
        rw [harg]
        simp only [parseVal]
        simp [parseStringBody_escChars, mk_data]
      | jarr xs =>
        cases xs with
        | nil =>
          show parseVal (fuel + 1) ((['[', ']'] : List Char) ++ rest) = _
          simp only [sizeJ, sizeL] at hsz
          cases fuel with
          | zero => omega
          | succ f =>
            simp only [List.cons_append, List.nil_append, parseVal]
            rw [if_neg (by decide), if_neg (by decide), if_neg (by decide),
              if_neg (by decide), if_pos trivial,
              skipWs_cons_of_not_ws (by decide)]
            simp only [parseArrStart]
            simp
        | cons x ys =>
          have harg : prettyV d (Json.jarr (JsonList.cons x ys)) ++ rest =
              '[' :: ('\n' :: (indent (d + 1) ++ (prettyV (d + 1) x ++
                (prettyArrTail (d + 1) ys ++ ('\n' :: (indent d ++ (']' :: rest))))))) := by
            simp [prettyV]
          rw [harg]
          simp only [parseVal]
          rw [if_neg (by decide), if_neg (by decide), if_neg (by decide), if_neg (by decide),
            if_pos trivial, skipWs_newline, skipWs_indent, skipWs_prettyV]
          have hx : sizeJ x + sizeL ys + 2 ≤ fuel := by
            simp only [sizeJ, sizeL] at hsz
            omega
          exact ihS x ys d rest hx hnd
      | jobj m =>
        cases m with
        | nil =>
          show parseVal (fuel + 1) ((['{', '}'] : List Char) ++ rest) = _
          simp only [sizeJ, sizeO] at hsz
          cases fuel with
          | zero => omega
          | succ f =>
            simp only [List.cons_append, List.nil_append, parseVal]
            rw [if_neg (by decide), if_neg (by decide), if_neg (by decide),
              if_neg (by decide), if_neg (by decide), if_pos trivial,
              skipWs_cons_of_not_ws (by decide)]
            simp only [parseObjStart]
            simp
        | cons k v m =>
          have harg : prettyV d (Json.jobj (JsonObj.cons k v m)) ++ rest =
              '{' :: ('\n' :: (indent (d + 1) ++ (keyChars k ++ (prettyV (d + 1) v ++
                (prettyObjTail (d + 1) m ++ ('\n' :: (indent d ++ ('}' :: rest)))))))) := by
            simp [prettyV, keyChars]
          rw [harg]
          simp only [parseVal]
          rw [if_neg (by decide), if_neg (by decide), if_neg (by decide), if_neg (by decide),
            if_neg (by decide), if_pos trivial, skipWs_newline, skipWs_indent,
            skipWs_keyChars]
          have hx : sizeJ v + sizeO m + 4 ≤ fuel := by
            simp only [sizeJ, sizeO] at hsz
            omega
          exact ihO k v m d rest hx hnd
    -- S: array interiors (non-empty)
    · intro x xs d rest hsz hnd
      obtain ⟨c1, t1, hct1, hvs1⟩ := prettyV_head (d + 1) x
      obtain ⟨hbr, _, _, _⟩ := valStartChar_ne hvs1
      have hx : sizeJ x ≤ fuel := by omega
      have hxs : sizeL xs + 1 ≤ fuel := by omega
      rw [hct1, List.cons_append]
      simp only [parseArrStart]
      rw [if_neg hbr, ← List.cons_append, ← hct1,
        ihA x (d + 1) _ hx (headNotDigit_arrTail _ _ _)]
      simp [ihB xs d rest hxs hnd]
    -- B: array tails
    · intro xs d rest hsz hnd
      cases xs with
      | nil =>
        show parseArrTail (fuel + 1) (([] : List Char) ++ _) = _
        rw [List.nil_append]
        simp only [parseArrTail]
        rw [skipWs_newline, skipWs_indent, skipWs_cons_of_not_ws (by decide)]
        simp
      | cons y ys =>
        have harg : prettyArrTail (d + 1) (JsonList.cons y ys) ++
              ('\n' :: (indent d ++ (']' :: rest))) =
            ',' :: ('\n' :: (indent (d + 1) ++ (prettyV (d + 1) y ++
              (prettyArrTail (d + 1) ys ++ ('\n' :: (indent d ++ (']' :: rest))))))) := by
          simp [prettyArrTail]
        rw [harg]
        simp only [parseArrTail]
        rw [skipWs_cons_of_not_ws (by decide)]
        have hy : sizeJ y ≤ fuel := by
          simp only [sizeL] at hsz
          omega
        have hys : sizeL ys + 1 ≤ fuel := by
          simp only [sizeL] at hsz
          omega
        have hskip : skipWs ('\n' :: (indent (d + 1) ++ (prettyV (d + 1) y ++
            (prettyArrTail (d + 1) ys ++ ('\n' :: (indent d ++ (']' :: rest))))))) =
            prettyV (d + 1) y ++ (prettyArrTail (d + 1) ys ++
              ('\n' :: (indent d ++ (']' :: rest)))) := by
          rw [skipWs_newline, skipWs_indent, skipWs_prettyV]
        simp only [if_neg (show (',' : Char) ≠ ']' from by decide), if_pos trivial,
          eq_self_iff_true, if_true, hskip,
          ihA y (d + 1) _ hy (headNotDigit_arrTail _ _ _)]
        simp [ihB ys d rest hys hnd]
    -- O: object interiors (non-empty)
    · intro k v m d rest hsz hnd
      have hv : sizeJ v + 1 ≤ fuel := by omega
      have hm : sizeO m + 1 ≤ fuel := by omega
      rw [show keyChars k ++ (prettyV (d + 1) v ++ (prettyObjTail (d + 1) m ++
          ('\n' :: (indent d ++ ('}' :: rest))))) =
          '"' :: (escChars k.data ++ ('"' :: (':' :: (' ' :: (prettyV (d + 1) v ++
            (prettyObjTail (d + 1) m ++ ('\n' :: (indent d ++ ('}' :: rest))))))))) from by
        simp [keyChars]]
      simp only [parseObjStart]
      rw [if_neg (by decide)]
      rw [show '"' :: (escChars k.data ++ ('"' :: (':' :: (' ' :: (prettyV (d + 1) v ++
          (prettyObjTail (d + 1) m ++ ('\n' :: (indent d ++ ('}' :: rest))))))))) =
          keyChars k ++ (prettyV (d + 1) v ++ (prettyObjTail (d + 1) m ++
            ('\n' :: (indent d ++ ('}' :: rest))))) from by
        simp [keyChars]]
      rw [ihE k v (d + 1) _ hv (headNotDigit_objTail _ _ _)]
      simp [ihC m d rest hm hnd]
    -- C: object tails
    · intro m d rest hsz hnd
      cases m with
      | nil =>
        show parseObjTail (fuel + 1) (([] : List Char) ++ _) = _
        rw [List.nil_append]
        simp only [parseObjTail]
        rw [skipWs_newline, skipWs_indent, skipWs_cons_of_not_ws (by decide)]
        simp
      | cons k v m =>
        have harg : prettyObjTail (d + 1) (JsonObj.cons k v m) ++
              ('\n' :: (indent d ++ ('}' :: rest))) =
            ',' :: ('\n' :: (indent (d + 1) ++ (keyChars k ++ (prettyV (d + 1) v ++
              (prettyObjTail (d + 1) m ++ ('\n' :: (indent d ++ ('}' :: rest)))))))) := by
          simp [prettyObjTail, keyChars]
        rw [harg]
        simp only [parseObjTail]
        rw [skipWs_cons_of_not_ws (by decide)]
        have hv : sizeJ v + 1 ≤ fuel := by
          simp only [sizeO] at hsz
          omega
        have hm : sizeO m + 1 ≤ fuel := by
          simp only [sizeO] at hsz
          omega
        have hskip : skipWs ('\n' :: (indent (d + 1) ++ (keyChars k ++ (prettyV (d + 1) v ++
            (prettyObjTail (d + 1) m ++ ('\n' :: (indent d ++ ('}' :: rest)))))))) =
            keyChars k ++ (prettyV (d + 1) v ++ (prettyObjTail (d + 1) m ++
              ('\n' :: (indent d ++ ('}' :: rest))))) := by
          rw [skipWs_newline, skipWs_indent, skipWs_keyChars]
        simp only [if_neg (show (',' : Char) ≠ '}' from by decide), if_pos trivial,
          eq_self_iff_true, if_true, hskip,
          ihE k v (d + 1) _ hv (headNotDigit_objTail _ _ _)]
        simp [ihC m d rest hm hnd]
    -- E: object entries
    · intro k v d rest hsz hnd
      have hv : sizeJ v ≤ fuel := by omega
      rw [show keyChars k ++ (prettyV d v ++ rest) =
          '"' :: (escChars k.data ++ ('"' :: (':' :: (' ' :: (prettyV d v ++ rest))))) from by
        simp [keyChars]]
      simp only [parseObjEntry]
      rw [if_pos trivial, parseStringBody_escChars]
      simp [skipWs_cons_of_not_ws (show isWsChar ':' = false from by decide),
        skipWs_cons_of_ws (show isWsChar ' ' = true from by decide),
        skipWs_prettyV, ihA v d rest hv hnd, mk_data]

theorem skipWs_prettyV_self (d : Nat) (v : Json) : skipWs (prettyV d v) = prettyV d v := by
  have h := skipWs_prettyV d v []
  simpa using h

/-- Parsing the 2-space-indented serialization of any JSON value
recovers the value. -/
theorem jsonParse_stringify (v : Json) : jsonParse (jsonStringify v) = some v := by
  have hone := (parse_pretty ((prettyV 0 v).length + 1)).1 v 0 [] (sizeJ_le_length v 0) rfl
  rw [List.append_nil] at hone
  show (match parseVal ((prettyV 0 v).length + 1) (skipWs (prettyV 0 v)) with
    | some (v, r) => if skipWs r = [] then some v else none
    | none => none) = some v
  rw [skipWs_prettyV_self, hone]
  rfl


/-! ## Claims about the handlers -/

/-- Claim C1: for every submission whose network call resolves and whose
body parses as JSON, submit appends exactly one Success record whose
responseText is the body re-serialized with 2-space indentation, the
history grows by exactly one, lifecycle becomes Success,
currentResponseText becomes the serialized text and selectedId the new
record's id. -/
theorem claim_C1_success_submission (validUrl : String → Bool) (s : AppState)
    (ok : Bool) (body perr : String) (now : Nat) (ts : String) (data : Json)
    (h1 : s.url ≠ "") (h2 : validUrl s.url = true) (hp : jsonParse body = some data) :
    (handleFetch validUrl s (.resolve ok body perr) now ts).1.history =
      s.history ++ [⟨now, s.url, jsonStringify data, .success, ts⟩] ∧
    (handleFetch validUrl s (.resolve ok body perr) now ts).1.history.length =
      s.history.length + 1 ∧
    (handleFetch validUrl s (.resolve ok body perr) now ts).1.status = Status.success ∧
    (handleFetch validUrl s (.resolve ok body perr) now ts).1.response = jsonStringify data ∧
    (handleFetch validUrl s (.resolve ok body perr) now ts).1.currentRequestId = some now := by
  have hg : ¬(s.url = "" ∨ validUrl s.url = false) := by
    simp [h1, h2]
  rw [handleFetch, if_neg hg]
  simp [completeFetch, hp]

/-- Witness for C1: a concrete successful submission of the body
`"[1]"`. -/
theorem claim_C1_witness :
    ({ initialState with url := "http://a" } : AppState).url ≠ "" ∧
    anyUrl ({ initialState with url := "http://a" } : AppState).url = true ∧
    jsonParse "[1]" = some (Json.jarr (JsonList.cons (Json.jnum 1) JsonList.nil)) ∧
    (handleFetch anyUrl { initialState with url := "http://a" }
        (.resolve true "[1]" "x") 5 "t").1.history =
      [⟨5, "http://a", jsonStringify (Json.jarr (JsonList.cons (Json.jnum 1) JsonList.nil)),
        .success, "t"⟩] := by
  refine ⟨by decide, rfl, rfl, ?_⟩
  have h := claim_C1_success_submission anyUrl { initialState with url := "http://a" }
    true "[1]" "x" 5 "t" (Json.jarr (JsonList.cons (Json.jnum 1) JsonList.nil))
    (by decide) rfl rfl
  exact h.1

/-- Claim C2: for every submission during which the network call or the
JSON parsing raises, submit appends exactly one Error record whose text
is "Error: " followed by the exception's message (or "Unknown error"
when none is available), the history grows by exactly one, and lifecycle
becomes Error. -/
theorem claim_C2_failing_submission (validUrl : String → Bool) (s : AppState)
    (ev : FetchEvent) (now : Nat) (ts : String)
    (h1 : s.url ≠ "") (h2 : validUrl s.url = true) (hf : FetchFails ev) :
    (handleFetch validUrl s ev now ts).1.history =
      s.history ++ [⟨now, s.url, errTextOf ev, .error, ts⟩] ∧
    (handleFetch validUrl s ev now ts).1.history.length = s.history.length + 1 ∧
    (handleFetch validUrl s ev now ts).1.status = Status.error ∧
    (handleFetch validUrl s ev now ts).1.response = errTextOf ev := by
  have hg : ¬(s.url = "" ∨ validUrl s.url = false) := by
    simp [h1, h2]
  rw [handleFetch, if_neg hg]
  cases ev with
  | reject msg =>
    cases msg <;> simp [completeFetch, errTextOf, Option.getD]
  | resolve ok body perr =>
    have hp : jsonParse body = none := hf
    simp [completeFetch, errTextOf, hp]

/-- Witness for C2: a concrete submission rejected with message
"timeout". -/
theorem claim_C2_witness :
    ({ initialState with url := "http://a" } : AppState).url ≠ "" ∧
    FetchFails (.reject (some "timeout")) ∧
    (handleFetch anyUrl { initialState with url := "http://a" }
        (.reject (some "timeout")) 5 "t").1.history =
      [⟨5, "http://a", "Error: timeout", .error, "t"⟩] := by
  refine ⟨by decide, trivial, ?_⟩
  have h := claim_C2_failing_submission anyUrl { initialState with url := "http://a" }
    (.reject (some "timeout")) 5 "t" (by decide) rfl trivial
  exact h.1

/-- Counterexample to claim C3: a completed call whose response carries
`ok = false` but a JSON body is recorded as a Success record with
lifecycle Success — the code never inspects the HTTP status. -/
theorem claim_C3_counterexample :
    (handleFetch anyUrl { initialState with url := "http://a" }
        (.resolve false "[1]" "boom") 7 "t").1.status = Status.success ∧
    (handleFetch anyUrl { initialState with url := "http://a" }
        (.resolve false "[1]" "boom") 7 "t").1.history.map ApiRequest.status =
      [ReqStatus.success] := by
  constructor
  · rfl
  · rfl

/-- Claim C3 (amended): the HTTP status flag is never inspected — the
result of a submission is identical for `ok = false` and `ok = true`;
a response body that fails to parse as JSON is recorded as an Error
record (with the parse error's message) and lifecycle Error, while a
body that parses is recorded as Success regardless of the status. -/
theorem claim_C3_status_not_inspected (validUrl : String → Bool) (s : AppState)
    (ok : Bool) (body perr : String) (now : Nat) (ts : String)
    (h1 : s.url ≠ "") (h2 : validUrl s.url = true) (hp : jsonParse body = none) :
    handleFetch validUrl s (.resolve ok body perr) now ts =
      handleFetch validUrl s (.resolve true body perr) now ts ∧
    (handleFetch validUrl s (.resolve ok body perr) now ts).1.status = Status.error ∧
    (handleFetch validUrl s (.resolve ok body perr) now ts).1.history =
      s.history ++ [⟨now, s.url, "Error: " ++ perr, .error, ts⟩] := by
  have hg : ¬(s.url = "" ∨ validUrl s.url = false) := by
    simp [h1, h2]
  rw [handleFetch, handleFetch, if_neg hg, if_neg hg]
  simp [completeFetch, hp]

/-- Witness for the amended C3: a concrete non-JSON body. -/
theorem claim_C3_witness :
    jsonParse "nope" = none ∧
    (handleFetch anyUrl { initialState with url := "http://a" }
        (.resolve false "nope" "bad syntax") 7 "t").1.status = Status.error := by
  refine ⟨rfl, ?_⟩
  have h := claim_C3_status_not_inspected anyUrl { initialState with url := "http://a" }
    false "nope" "bad syntax" 7 "t" (by decide) rfl rfl
  exact h.2.1

/-- Claim C4: for every string that is empty or rejected by URL
validation, submit is a no-op — the state is returned unchanged, no
network call is issued (the Boolean is false) and hence no record is
appended. -/
theorem claim_C4_invalid_noop (validUrl : String → Bool) (s : AppState)
    (ev : FetchEvent) (now : Nat) (ts : String)
    (h : s.url = "" ∨ validUrl s.url = false) :
    handleFetch validUrl s ev now ts = (s, false) := by
  rw [handleFetch, if_pos h]

/-- Witness for C4: the empty URL of the initial state. -/
theorem claim_C4_witness :
    (initialState.url = "" ∨ anyUrl initialState.url = false) ∧
    handleFetch anyUrl initialState (.reject none) 0 "t" = (initialState, false) :=
  ⟨Or.inl rfl, claim_C4_invalid_noop anyUrl initialState (.reject none) 0 "t" (Or.inl rfl)⟩

/-- Claim C7: selecting a record of the history projects it into the
session state — url, responseText, lifecycle derived from the outcome
(Success→Success, Error→Error) and selectedId — while the history is
left unmutated and no network call is issued (the pending set of any
select transition is unchanged). -/
theorem claim_C7_select_projection (s : AppState) (r : ApiRequest)
    (_h : r ∈ s.history) :
    (handleSelectRequest s r).url = r.url ∧
    (handleSelectRequest s r).response = r.response ∧
    (handleSelectRequest s r).status = r.status.toStatus ∧
    (handleSelectRequest s r).currentRequestId = some r.id ∧
    (handleSelectRequest s r).history = s.history ∧
    (∀ (validUrl : String → Bool) (sys sys' : SysState),
      Step validUrl (Act.select r) sys sys' → sys'.pending = sys.pending) := by
  refine ⟨rfl, rfl, rfl, rfl, rfl, ?_⟩
  intro validUrl sys sys' hstep
  cases hstep
  rfl

/-- Witness for C7: selecting the single record of a one-record
history. -/
theorem claim_C7_witness :
    (⟨5, "http://a", "[]", .success, "t"⟩ : ApiRequest) ∈
      ({ initialState with
          history := [⟨5, "http://a", "[]", .success, "t"⟩] } : AppState).history ∧
    (handleSelectRequest
        { initialState with history := [⟨5, "http://a", "[]", .success, "t"⟩] }
        ⟨5, "http://a", "[]", .success, "t"⟩).response = "[]" := by
  refine ⟨by decide, ?_⟩
  have h := claim_C7_select_projection
    { initialState with history := [⟨5, "http://a", "[]", .success, "t"⟩] }
    ⟨5, "http://a", "[]", .success, "t"⟩ (by decide)
  exact h.2.1

/-- Claim C8: display formatting is idempotent — for every text and
every lifecycle value, formatting the formatted text again (with the
same lifecycle) returns it unchanged. -/
theorem claim_C8_format_idempotent (response : String) (status : Status) :
    formatResponse (formatResponse response status) status =
      formatResponse response status := by
  by_cases h : status = Status.success ∨ status = Status.error
  · simp only [formatResponse, if_pos h]
    cases hp : jsonParse response with
    | none => simp [hp]
    | some v => simp [jsonParse_stringify]
  · simp [formatResponse, if_neg h]

/-- Counterexample to claim C9: with a budget below the ellipsis length,
the truncated form exceeds the budget (`substring(0, maxLength - 3)`
clamps to the empty string and the three ellipsis dots remain). -/
theorem claim_C9_counterexample :
    ¬ ((truncateUrl "abcdef" 2).length ≤ 2) := by decide

/-- Claim C9 (amended): for every url and every budget of at least 3
characters, the truncated form never exceeds the budget; it equals the
url whenever the url fits, and otherwise it is the prefix of the url of
length budget − 3 followed by the ellipsis "...". -/
theorem claim_C9_truncateUrl (url : String) (maxLength : Nat) (h : 3 ≤ maxLength) :
    (truncateUrl url maxLength).length ≤ maxLength ∧
    (url.length ≤ maxLength → truncateUrl url maxLength = url) ∧
    (maxLength < url.length →
      truncateUrl url maxLength =
        String.mk (url.data.take (maxLength - 3)) ++ "...") := by
  rw [truncateUrl]
  by_cases hle : url.length ≤ maxLength
  · rw [if_pos hle]
    exact ⟨hle, fun _ => rfl, fun hgt => absurd hle (by omega)⟩
  · rw [if_neg hle]
    refine ⟨?_, fun hle2 => absurd hle2 hle, fun _ => rfl⟩
    have hlen : (String.mk (url.data.take (maxLength - 3)) ++ "...").length =
        (url.data.take (maxLength - 3)).length + 3 := by
      rw [String.length_append]
      rfl
    rw [hlen, List.length_take]
    omega

/-- Witness for the amended C9: an 8-character url with budget 5. -/
theorem claim_C9_witness :
    (3 ≤ 5) ∧ (truncateUrl "abcdefgh" 5).length ≤ 5 := by
  refine ⟨by decide, ?_⟩
  have h := claim_C9_truncateUrl "abcdefgh" 5 (by decide)
  exact h.1

/-- Claim C10: after every completed submission attempt — failed as well
as successful — exactly one record is appended, it is the last element
of the history, and selectedId equals its id. -/
theorem claim_C10_selected_is_last (validUrl : String → Bool) (s : AppState)
    (ev : FetchEvent) (now : Nat) (ts : String)
    (h1 : s.url ≠ "") (h2 : validUrl s.url = true) :
    ∃ r : ApiRequest,
      (handleFetch validUrl s ev now ts).1.history = s.history ++ [r] ∧
      (handleFetch validUrl s ev now ts).1.history.getLast? = some r ∧
      (handleFetch validUrl s ev now ts).1.currentRequestId = some r.id := by
  have hg : ¬(s.url = "" ∨ validUrl s.url = false) := by
    simp [h1, h2]
  rw [handleFetch, if_neg hg]
  cases ev with
  | reject msg =>
    refine ⟨_, rfl, ?_, rfl⟩
    simp [completeFetch, List.getLast?_concat]
  | resolve ok body perr =>
    cases hp : jsonParse body with
    | none =>
      refine ⟨⟨now, s.url, "Error: " ++ perr, .error, ts⟩, ?_, ?_, ?_⟩ <;>
        simp [completeFetch, hp, List.getLast?_concat]
    | some data =>
      refine ⟨⟨now, s.url, jsonStringify data, .success, ts⟩, ?_, ?_, ?_⟩ <;>
        simp [completeFetch, hp, List.getLast?_concat]

/-- Witness for C10: a concrete failed submission. -/
theorem claim_C10_witness :
    ({ initialState with url := "http://a" } : AppState).url ≠ "" ∧
    ∃ r : ApiRequest,
      (handleFetch anyUrl { initialState with url := "http://a" }
          (.reject none) 9 "t").1.history =
        ({ initialState with url := "http://a" } : AppState).history ++ [r] ∧
      (handleFetch anyUrl { initialState with url := "http://a" }
          (.reject none) 9 "t").1.history.getLast? = some r ∧
      (handleFetch anyUrl { initialState with url := "http://a" }
          (.reject none) 9 "t").1.currentRequestId = some r.id :=
  ⟨by decide, claim_C10_selected_is_last anyUrl { initialState with url := "http://a" }
    (.reject none) 9 "t" (by decide) rfl⟩

/-! ## Claims about the event system -/


/-- Counterexample to claim C5: selecting a history record while a call
is loading resets the lifecycle, re-enabling the submit control, so a
state with two calls in flight is reachable.  "At most one network call
is ever in flight" is false. -/
theorem claim_C5_counterexample :
    Reachable anyUrl c5twoInFlight ∧ 2 ≤ c5twoInFlight.pending.length := by
  constructor
  · refine Relation.ReflTransGen.head ⟨_, Step.edit "http://a" initialSys (by decide)⟩ ?_
    refine Relation.ReflTransGen.head ⟨_, Step.submit _ (by decide) (by decide)⟩ ?_
    refine Relation.ReflTransGen.head
      ⟨_, Step.complete (.resolve true "[]" "x") 1 "t1" ⟨"http://a", []⟩ [] _ rfl⟩ ?_
    refine Relation.ReflTransGen.head ⟨_, Step.submit _ (by decide) (by decide)⟩ ?_
    refine Relation.ReflTransGen.head
      ⟨_, Step.select ⟨1, "http://a", "[]", .success, "t1"⟩ _ (by decide)⟩ ?_
    refine Relation.ReflTransGen.head ⟨_, Step.submit _ (by decide) (by decide)⟩ ?_
    exact Relation.ReflTransGen.refl
  · decide

/-- Claim C5 (amended): while lifecycle is Loading the submit control is
inert — no submit transition exists from a loading state; this alone
does not bound the number of in-flight calls, because select and clear
remain enabled while loading and reset the lifecycle. -/
theorem claim_C5_submit_inert_while_loading (validUrl : String → Bool)
    (s s' : SysState) (h : s.app.status = Status.loading) :
    ¬ Step validUrl Act.submit s s' := by
  intro hstep
  cases hstep with
  | submit _ hl _ => exact hl h

/-- Witness for the amended C5: no submit step exists from a concrete
loading state. -/
theorem claim_C5_witness :
    ¬ Step anyUrl Act.submit
      ⟨⟨"http://a", "Fetching data...", .loading, [], none⟩, [⟨"http://a", []⟩]⟩
      initialSys :=
  claim_C5_submit_inert_while_loading anyUrl
    ⟨⟨"http://a", "Fetching data...", .loading, [], none⟩, [⟨"http://a", []⟩]⟩
    initialSys rfl

/-- Every completion appends exactly one record, carrying the clock
reading as id, to the captured history. -/
theorem completeFetch_history (cap : FetchCtx) (ev : FetchEvent) (now : Nat)
    (ts : String) (a : AppState) :
    ∃ rec : ApiRequest,
      (completeFetch cap ev now ts a).history = cap.history ++ [rec] ∧ rec.id = now := by
  cases ev with
  | reject msg =>
    exact ⟨⟨now, cap.url, "Error: " ++ msg.getD "Unknown error", .error, ts⟩, rfl, rfl⟩
  | resolve ok body perr =>
    cases hjp : jsonParse body with
    | some d =>
      refine ⟨⟨now, cap.url, jsonStringify d, .success, ts⟩, ?_, rfl⟩
      simp [completeFetch, hjp]
    | none =>
      refine ⟨⟨now, cap.url, "Error: " ++ perr, .error, ts⟩, ?_, rfl⟩
      simp [completeFetch, hjp]

/-- Invariant of clock-disciplined executions: the record ids in the
current history, and in every captured history of an outstanding call,
are strictly increasing in insertion order and strictly below the clock
bound. -/
theorem reachClocked_invariant {validUrl : String → Bool} {t : Nat} {s : SysState}
    (h : ReachClocked validUrl t s) :
    (List.Chain' (· < ·) (s.app.history.map ApiRequest.id) ∧
      (∀ r ∈ s.app.history, r.id < t)) ∧
    (∀ cap ∈ s.pending,
      List.Chain' (· < ·) (cap.history.map ApiRequest.id) ∧
      ∀ r ∈ cap.history, r.id < t) := by
  induction h with
  | init => simp [initialSys, initialState]
  | nonComplete t a s s' hr hstep hnc ih =>
    obtain ⟨⟨hch, hbd⟩, hpend⟩ := ih
    cases hstep with
    | edit u s hl => exact ⟨⟨hch, hbd⟩, hpend⟩
    | submit s hl hu =>
      refine ⟨⟨hch, hbd⟩, ?_⟩
      intro cap hcap
      rcases List.mem_append.mp hcap with hcap | hcap
      · exact hpend cap hcap
      · rw [List.mem_singleton.mp hcap]
        exact ⟨hch, hbd⟩
    | complete ev now ts cap rest s hp => exact absurd rfl (hnc ev now ts)
    | select r s hsel => exact ⟨⟨hch, hbd⟩, hpend⟩
    | clear s hh =>
      exact ⟨⟨by simp [handleClearHistory], by simp [handleClearHistory]⟩, hpend⟩
  | complete t ev now ts s s' hr hstep hclock ih =>
    obtain ⟨⟨hch, hbd⟩, hpend⟩ := ih
    cases hstep with
    | complete ev now ts cap rest s hp =>
      obtain ⟨hcapch, hcapbd⟩ := hpend cap (by rw [hp]; exact List.mem_cons_self _ _)
      obtain ⟨rec, hrec, hrecid⟩ := completeFetch_history cap ev now ts s.app
      refine ⟨⟨?_, ?_⟩, ?_⟩
      · show List.Chain' (· < ·) ((completeFetch cap ev now ts s.app).history.map ApiRequest.id)
        rw [hrec, List.map_append]
        refine List.Chain'.append hcapch (by simp) ?_
        intro x hx y hy
        simp only [List.map_cons, List.map_nil, List.head?_cons, Option.mem_def,
          Option.some.injEq] at hy
        have hxmem : x ∈ cap.history.map ApiRequest.id :=
          List.mem_of_mem_getLast? hx
        obtain ⟨r0, hr0, hr0x⟩ := List.mem_map.mp hxmem
        have := hcapbd r0 hr0
        omega
      · intro r hrm
        show r.id < now + 1
        rw [hrec] at hrm
        rcases List.mem_append.mp hrm with hm | hm
        · have := hcapbd r hm
          omega
        · rw [List.mem_singleton.mp hm]
          omega
      · intro cap' hcap'
        have hmem : cap' ∈ s.pending := by
          rw [hp]
          exact List.mem_cons_of_mem _ hcap'
        obtain ⟨h1, h2⟩ := hpend cap' hmem
        exact ⟨h1, fun r hr2 => lt_of_lt_of_le (h2 r hr2) (by omega)⟩

/-- Claim C6 (amended): in every reachable state of an execution in
which each completion reads a clock value strictly above all earlier
readings, the record ids of the history are strictly increasing in
insertion order and therefore unique; with a non-strict clock (two
completions in the same millisecond) duplicate ids are reachable. -/
theorem claim_C6_ids_increasing (validUrl : String → Bool) (t : Nat) (s : SysState)
    (h : ReachClocked validUrl t s) :
    List.Chain' (· < ·) (s.app.history.map ApiRequest.id) ∧
    (s.app.history.map ApiRequest.id).Nodup := by
  have hch := (reachClocked_invariant h).1.1
  refine ⟨hch, ?_⟩
  exact (List.chain'_iff_pairwise.mp hch).imp Nat.ne_of_lt


/-- Counterexample to claim C6: ids are produced by `Date.now()`, so two
completions within the same clock tick yield duplicate ids — a reachable
state whose history ids are neither unique nor strictly increasing. -/
theorem claim_C6_counterexample :
    Reachable anyUrl c6dupIds ∧
    ¬ (c6dupIds.app.history.map ApiRequest.id).Nodup ∧
    ¬ List.Chain' (· < ·) (c6dupIds.app.history.map ApiRequest.id) := by
  refine ⟨?_, by decide, ?_⟩
  swap
  · rw [show c6dupIds.app.history.map ApiRequest.id = [5, 5] from rfl]
    simp [List.chain'_cons]
  refine Relation.ReflTransGen.head ⟨_, Step.edit "http://a" initialSys (by decide)⟩ ?_
  refine Relation.ReflTransGen.head ⟨_, Step.submit _ (by decide) (by decide)⟩ ?_
  refine Relation.ReflTransGen.head
    ⟨_, Step.complete (.resolve true "[]" "x") 5 "t" ⟨"http://a", []⟩ [] _ rfl⟩ ?_
  refine Relation.ReflTransGen.head ⟨_, Step.submit _ (by decide) (by decide)⟩ ?_
  refine Relation.ReflTransGen.head
    ⟨_, Step.complete (.resolve true "[]" "x") 5 "t"
      ⟨"http://a", [⟨5, "http://a", "[]", .success, "t"⟩]⟩ [] _ rfl⟩ ?_
  exact Relation.ReflTransGen.refl

/-- Witness for the amended C6: a clock-disciplined execution with one
completion (clock 5). -/
theorem claim_C6_witness :
    List.Chain' (· < ·)
      ((⟨⟨"http://a", "[]", .success, [⟨5, "http://a", "[]", .success, "t"⟩], some 5⟩,
        []⟩ : SysState).app.history.map ApiRequest.id) ∧
    ((⟨⟨"http://a", "[]", .success, [⟨5, "http://a", "[]", .success, "t"⟩], some 5⟩,
        []⟩ : SysState).app.history.map ApiRequest.id).Nodup := by
  have hstep1 : Step anyUrl (Act.edit "http://a") initialSys
      ⟨⟨"http://a", "No data yet. Enter an API endpoint and click Fetch.", .idle, [], none⟩,
        []⟩ :=
    Step.edit _ _ (by decide)
  have hstep2 : Step anyUrl Act.submit
      ⟨⟨"http://a", "No data yet. Enter an API endpoint and click Fetch.", .idle, [], none⟩,
        []⟩
      ⟨⟨"http://a", "Fetching data...", .loading, [], none⟩, [⟨"http://a", []⟩]⟩ :=
    Step.submit _ (by decide) (by decide)
  have hstep3 : Step anyUrl (Act.complete (.resolve true "[]" "x") 5 "t")
      ⟨⟨"http://a", "Fetching data...", .loading, [], none⟩, [⟨"http://a", []⟩]⟩
      ⟨⟨"http://a", "[]", .success, [⟨5, "http://a", "[]", .success, "t"⟩], some 5⟩, []⟩ :=
    Step.complete _ _ _ ⟨"http://a", []⟩ [] _ rfl
  have h1 := ReachClocked.nonComplete 0 _ _ _ ReachClocked.init hstep1
    (fun ev now ts h => by simp at h)
  have h2 := ReachClocked.nonComplete 0 _ _ _ h1 hstep2
    (fun ev now ts h => by simp at h)
  have h3 := ReachClocked.complete 0 _ 5 "t" _ _ h2 hstep3 (by omega)
  exact claim_C6_ids_increasing anyUrl 6 _ h3
